import Mathlib

/-!
# Verification of the carapace shell's command pipeline

Shallow embedding of the carapace shell (netromdk/carapace.rs) core:
the environment store with variable substitution (`src/env.rs`,
`src/util.rs`), the command-line processor (`src/prompt.rs`,
`Prompt::parse_command`), the directory-stack commands
(`src/command/cd_command.rs`, `pushd_command.rs`, `popd_command.rs`),
the option toggles (`src/command/set_command.rs`,
`export_command.rs`), external command execution
(`src/command/general_command.rs`) and the dispatch layer
(`src/command/mod.rs`).

Rust strings are modelled as `List Char` (the inputs of interest are
ASCII, so byte indices and char indices coincide).  External
collaborators (the filesystem, the `glob` crate's pattern compiler,
process spawning) are oracle parameters.  Functions from external
crates that the pipeline calls on its data (`regex` replacement,
`shlex::split`) are modelled from their documented behaviour.
-/

namespace Carapace

/-- Rust `String`, modelled as a list of characters. -/
abbrev Str := List Char

/-- Character class of the regex `ENV_VAR_REGEX = (\$[\w\?\-#!\$_@\*]*)`
from `src/env.rs`: word characters plus `? - # ! $ _ @ *`. -/
def isVarChar (c : Char) : Bool :=
  c.isAlphanum || c = '_' || c = '?' || c = '-' || c = '#' || c = '!' ||
    c = '$' || c = '@' || c = '*'

/-- Fuel-driven worker for `listReplace`; the fuel only serves to make
the recursion structural, `s.length` is always enough because a
non-empty pattern consumes at least one character per step. -/
def listReplaceGo : Nat → Str → Str → Str → Str
  | 0, s, _, _ => s
  | _ + 1, [], _, _ => []
  | fuel + 1, c :: rest, pat, rep =>
    if pat ≠ [] ∧ pat.isPrefixOf (c :: rest) then
      rep ++ listReplaceGo fuel ((c :: rest).drop pat.length) pat rep
    else
      c :: listReplaceGo fuel rest pat rep

/-- Rust `str::replace pat rep`: replace every non-overlapping occurrence
of `pat`, scanning left to right.  (Only called with non-empty `pat`.) -/
def listReplace (s pat rep : Str) : Str :=
  listReplaceGo s.length s pat rep

/-- Fuel-driven worker for `barePass`; `s.length` fuel is always enough
because each step consumes at least the character at the head. -/
def barePassGo (k v : Str) : Nat → Str → Str
  | 0, s => s
  | _ + 1, [] => []
  | fuel + 1, c :: rest =>
    if c = '$' then
      let run := rest.takeWhile isVarChar
      let rest' := rest.dropWhile isVarChar
      (if run = k then v else '$' :: run) ++ barePassGo k v fuel rest'
    else
      c :: barePassGo k v fuel rest

/-- One bare-form pass of `Env::replace_vars` (`src/env.rs` lines
115-125): `ENV_VAR_REGEX.replace_all` with a closure substituting `v`
for a matched token exactly equal to `"$" ++ k`.  The regex matches a
`$` followed by the greedy run of `isVarChar` characters. -/
def barePass (k v : Str) (s : Str) : Str :=
  barePassGo k v s.length s

/-- The bracketed pattern `"${" ++ k ++ "}"` built by
`format!("${{{}}}", k)` in `src/env.rs`. -/
def bracketPat (k : Str) : Str := '$' :: '{' :: (k ++ ['}'])

/-- One iteration of the `for (k, v) in &self.env` loop of
`Env::replace_vars` (`src/env.rs` lines 108-126): the bracketed form
always replaces, then the bare form replaces exact tokens only. -/
def replacePass (s : Str) (kv : Str × Str) : Str :=
  barePass kv.1 kv.2 (listReplace s (bracketPat kv.1) kv.2)

/-- `Env::replace_vars` / `util::replace_vars`: fold the per-key pass over
the environment entries in iteration order.  The Rust code iterates a
`HashMap` whose order is unspecified; the list order of `env` is that
iteration order. -/
def replaceVars (env : List (Str × Str)) (s : Str) : Str :=
  env.foldl replacePass s

/-- A `HashMap<String, String>` snapshot: association list whose order is
the (unspecified) iteration order; keys are unique by construction. -/
abbrev EnvMap := List (Str × Str)

/-- `HashMap::contains_key`. -/
def envContains : EnvMap → Str → Bool
  | [], _ => false
  | kv :: rest, k => kv.1 = k || envContains rest k

/-- `HashMap::get` (keys are unique, so the first hit is the entry). -/
def envLookup : EnvMap → Str → Option Str
  | [], _ => none
  | kv :: rest, k => if kv.1 = k then some kv.2 else envLookup rest k

/-- `HashMap::insert`: overwrite the value in place if the key exists,
otherwise add the entry (at the end, representing some iteration slot). -/
def envInsert (env : EnvMap) (k v : Str) : EnvMap :=
  match env with
  | [] => [(k, v)]
  | kv :: rest => if kv.1 = k then (k, v) :: rest else kv :: envInsert rest k v

/-- `HashMap::remove`. -/
def envRemove (env : EnvMap) (k : Str) : EnvMap :=
  env.filter (fun kv => kv.1 ≠ k)

/-- `HashSet::insert`. -/
def setInsert (s : List Str) (k : Str) : List Str :=
  if k ∈ s then s else s ++ [k]

/-- `Prompt::restore_env` (`src/prompt.rs` lines 214-226): remove the
keys marked for deletion, then restore the saved previous values. -/
def restoreEnvApply (env : EnvMap) (delete : List Str) (restore : EnvMap) : EnvMap :=
  let env1 := delete.foldl envRemove env
  restore.foldl (fun e kv => envInsert e kv.1 kv.2) env1

/-- Rust `str::split_whitespace`: split on whitespace runs, no empty
words.  The accumulator holds the current word reversed. -/
def splitWSGo : Str → Str → List Str
  | [], acc => if acc = [] then [] else [acc.reverse]
  | c :: rest, acc =>
    if c.isWhitespace then
      if acc = [] then splitWSGo rest [] else acc.reverse :: splitWSGo rest []
    else
      splitWSGo rest (c :: acc)

/-- Rust `str::split_whitespace` as used in `Prompt::parse_command`. -/
def splitWS (s : Str) : List Str := splitWSGo s []

/-- Rust `str::trim`. -/
def trimWS (s : Str) : Str :=
  ((s.dropWhile Char.isWhitespace).reverse.dropWhile Char.isWhitespace).reverse

/-- State of the inline-env-var scan of `Prompt::parse_command`
(`src/prompt.rs` lines 103-130): the `abort_inline` flag, the session
environment, and the pending restore map / delete set. -/
structure ScanSt where
  abort : Bool
  env : EnvMap
  restore : EnvMap
  delete : List Str
deriving Repr, DecidableEq

/-- One `filter_map` step of the inline-env-var scan (`src/prompt.rs`
lines 106-129): an as-yet leading word containing `=` is split at the
first `=`, recorded for restoration/deletion, applied to the
environment, and dropped; the first word without `=` aborts the scan;
after the abort every word is substituted against the (mutated)
environment. -/
def inlineScanStep (s : ScanSt) (w : Str) : ScanSt × Option Str :=
  if s.abort then (s, some (replaceVars s.env w))
  else
    match w.findIdx? (fun c => c = '=') with
    | some pos =>
      let k := w.take pos
      let v := w.drop (pos + 1)
      let s' :=
        if envContains s.env k then
          { s with restore := envInsert s.restore k ((envLookup s.env k).getD []) }
        else
          { s with delete := setInsert s.delete k }
      ({ s' with env := envInsert s'.env k v }, none)
    | none => ({ s with abort := true }, some (replaceVars s.env w))

/-- The whole inline-env-var `filter_map` over the word list. -/
def inlineScan (s : ScanSt) : List Str → ScanSt × List Str
  | [] => (s, [])
  | w :: rest =>
    let (s1, r) := inlineScanStep s w
    let (s2, rs) := inlineScan s1 rest
    (s2, match r with | some x => x :: rs | none => rs)

/-- `PathBuf::join` of the home directory with the remainder of a `~`
token (absolute remainder replaces, empty remainder keeps the home
directory with a trailing separator). -/
def pathJoin (home rest : Str) : Str :=
  if rest = [] then home ++ ['/']
  else if rest.headD ' ' = '/' then rest
  else home ++ '/' :: rest

/-- Tilde expansion of one token (`src/prompt.rs` lines 156-171). -/
def tildeExpand (home : Str) (x : Str) : Str :=
  if x.headD ' ' ≠ '~' then x
  else
    let cnt := if ('~' :: '/' :: []).isPrefixOf x then 2 else 1
    pathJoin home (x.drop cnt)

/-- `util::expand_glob` (`src/util.rs` lines 137-146) against a glob
oracle: the oracle yields the `Ok` paths of the filesystem glob, or
`Except.error` when the `glob` crate rejects the pattern.  The Rust code
calls `.unwrap()` on that result, so the error case is a panic,
modelled as `none`; otherwise an empty match list keeps the literal
token. -/
def expandGlob (g : Str → Except Unit (List Str)) (input : Str) : Option (List Str) :=
  match g input with
  | .error _ => none
  | .ok paths => some (if paths = [] then [input] else paths)

/-- The glob-expansion loop of `Prompt::parse_command` (`src/prompt.rs`
lines 173-181): tokens containing `*` go through `util::expand_glob`,
others are kept; a panic in any expansion aborts the whole line. -/
def expandAll (g : Str → Except Unit (List Str)) : List Str → Option (List Str)
  | [] => some []
  | v :: rest =>
    let cur := if v.contains '*' then expandGlob g v else some [v]
    match cur, expandAll g rest with
    | some xs, some ys => some (xs ++ ys)
    | _, _ => none

/-- Lexer mode of the `shlex` crate's splitter. -/
inductive ShMode | norm | single | double
deriving Repr, DecidableEq

/-- Worker for `shlexSplit`, modelled from the `shlex` crate's
documented behaviour ("An input string is erroneous if it ends while
inside a quotation or right after an unescaped backslash"): whitespace
separates words, single quotes are fully literal, double quotes and
bare text support backslash escapes, a backslash-newline is dropped. -/
def shlexGo : ShMode → Str → Str → Bool → Option (List Str)
  | .norm, [], cur, inW => some (if inW then [cur.reverse] else [])
  | .single, [], _, _ => none
  | .double, [], _, _ => none
  | .norm, c :: rest, cur, inW =>
    if c = ' ' ∨ c = '\t' ∨ c = '\n' then
      match shlexGo .norm rest [] false with
      | none => none
      | some ws => some (if inW then cur.reverse :: ws else ws)
    else if c = '\'' then shlexGo .single rest cur true
    else if c = '"' then shlexGo .double rest cur true
    else if c = '\\' then
      match rest with
      | [] => none
      | c2 :: rest2 =>
        shlexGo .norm rest2 (if c2 = '\n' then cur else c2 :: cur) true
    else shlexGo .norm rest (c :: cur) true
  | .single, c :: rest, cur, _ =>
    if c = '\'' then shlexGo .norm rest cur true
    else shlexGo .single rest (c :: cur) true
  | .double, c :: rest, cur, _ =>
    if c = '"' then shlexGo .norm rest cur true
    else if c = '\\' then
      match rest with
      | [] => none
      | c2 :: rest2 =>
        shlexGo .double rest2 (if c2 = '\n' then cur else c2 :: cur) true
    else shlexGo .double rest (c :: cur) true

/-- `shlex::split`, used by `Prompt::parse_command` to re-split the
argument string while preserving quoted segments. -/
def shlexSplit (s : Str) : Option (List Str) := shlexGo .norm s [] false

/-- `Vec<String>::join(" ")`. -/
def joinSpace (ws : List Str) : Str := (List.intersperse [' '] ws).flatten

/-- Errors of `Prompt::parse_command`: `NoCommandError`,
`CommandArgsSplitError`, and the panic of `util::expand_glob` on a glob
pattern the `glob` crate rejects. -/
inductive ParseErr | noCommand | argsSplit | globPanic
deriving Repr, DecidableEq

/-- External collaborators of the pipeline: the home directory, the
`is_dir` filesystem query, and the filesystem glob. -/
structure Oracles where
  homeDir : Str
  isDir : Str → Bool
  globFs : Str → Except Unit (List Str)

/-- Session state relevant to `Prompt::parse_command`: environment,
pending inline-env restoration, and the static config (aliases,
auto-cd flag). -/
structure PromptSt where
  env : EnvMap
  restore : EnvMap
  delete : List Str
  aliases : EnvMap
  autoCd : Bool
deriving Repr, DecidableEq

/-- `Prompt::parse_command` (`src/prompt.rs` lines 82-211): apply the
pending env restoration, trim, substitute variables, tokenize, scan
inline assignments, alias-substitute, tilde-expand, glob-expand,
re-split arguments with `shlex`, and apply the auto-cd rewrite.  The
result is the `(program, args)` pair handed to `command::parse`
(history recording, verbose echo and xtrace printing are I/O only). -/
def parseCommand (o : Oracles) (st0 : PromptSt) (input : Str) :
    Except ParseErr (Str × List Str) × PromptSt :=
  let env0 := restoreEnvApply st0.env st0.delete st0.restore
  let st := { st0 with env := env0, restore := [], delete := [] }
  let input := trimWS input
  if input = [] then (.error .noCommand, st)
  else
    let input := replaceVars st.env input
    let values0 := splitWS input
    let (scan, values1) :=
      inlineScan ⟨false, st.env, st.restore, st.delete⟩ values0
    let st := { st with env := scan.env, restore := scan.restore, delete := scan.delete }
    match values1 with
    | [] => (.error .noCommand, st)
    | v0 :: vrest =>
      let values2 :=
        match envLookup st.aliases v0 with
        | some ali => splitWS ali ++ vrest
        | none => v0 :: vrest
      let values3 := values2.map (tildeExpand o.homeDir)
      match expandAll o.globFs values3 with
      | none => (.error .globPanic, st)
      | some expanded =>
        let program := expanded.headD []
        let args := expanded.drop 1
        match shlexSplit (joinSpace args) with
        | none => (.error .argsSplit, st)
        | some args1 =>
          -- After `drain(1..)` the Rust vector holds exactly the first
          -- element, so its `len() == 1` check reads `expanded.take 1`.
          if st.autoCd ∧ (expanded.take 1).length = 1 ∧
              o.isDir (values3.headD []) then
            (.ok (['c', 'd'], [program]), st)
          else
            (.ok (program, args1), st)

/-! ## Directory stack: `cd`, `pushd`, `popd` -/

/-- Filesystem responses consumed by one `set_cwd` call: the result of
`Path::canonicalize` on the target and whether `env::set_current_dir`
succeeds.  The filesystem may change between operations, so each
operation carries its own responses. -/
structure FsStep where
  canonTarget : Option Str
  chdirOk : Bool
deriving Repr, DecidableEq

/-- State touched by the directory-stack commands: the stack (`Vec`,
top at the end) and the current working directory as reported by
`env::current_dir`. -/
structure DirSt where
  dirStack : List Str
  cwd : Str
deriving Repr, DecidableEq

/-- `Prompt::set_cwd` (`src/prompt.rs` lines 331-355): no-op when the
canonicalized target (empty on canonicalization failure) equals the
current directory; otherwise change directory, returning the old cwd on
success.  On success the new `current_dir` is the canonical target. -/
def setCwd (fs : FsStep) (cwd : Str) : Option Str × Str :=
  let canonPath := fs.canonTarget.getD []
  if canonPath = cwd then (none, cwd)
  else if fs.chdirOk then (some cwd, canonPath)
  else (none, cwd)

/-- `CdCommand::execute` (`src/command/cd_command.rs` lines 55-67): on a
successful directory change, push the old cwd unless it equals the
stack's top. -/
def cdExec (fs : FsStep) (st : DirSt) : DirSt :=
  match setCwd fs st.cwd with
  | (some oldpwd, newCwd) =>
    let stack :=
      if st.dirStack.getLast? = some oldpwd then st.dirStack
      else st.dirStack ++ [oldpwd]
    ⟨stack, newCwd⟩
  | (none, newCwd) => ⟨st.dirStack, newCwd⟩

/-- `PushdCommand::execute` (`src/command/pushd_command.rs` lines
34-52): with a path argument, on a successful directory change push the
old cwd unconditionally; without a path only the stack is printed. -/
def pushdExec (hasPath : Bool) (fs : FsStep) (st : DirSt) : DirSt :=
  if hasPath then
    match setCwd fs st.cwd with
    | (some oldpwd, newCwd) => ⟨st.dirStack ++ [oldpwd], newCwd⟩
    | (none, newCwd) => ⟨st.dirStack, newCwd⟩
  else st

/-- `PopdCommand::execute` (`src/command/popd_command.rs`): pop the top
of the stack (no-op with a message when empty) and change into it via
`util::set_cwd`, whose success result is ignored.  `util::set_cwd` is
not part of this source snapshot; it is modelled like
`Prompt::set_cwd`. -/
def popdExec (fs : FsStep) (st : DirSt) : DirSt :=
  match st.dirStack.getLast? with
  | some _ => ⟨st.dirStack.dropLast, (setCwd fs st.cwd).2⟩
  | none => st

/-- One REPL step touching the directory stack. -/
inductive DirOp
  | cd (fs : FsStep)
  | pushd (hasPath : Bool) (fs : FsStep)
  | popd (fs : FsStep)
deriving Repr

/-- Dispatch of one directory-stack command. -/
def dirStep (st : DirSt) : DirOp → DirSt
  | .cd fs => cdExec fs st
  | .pushd hasPath fs => pushdExec hasPath fs st
  | .popd fs => popdExec fs st

/-- Run a sequence of directory-stack commands. -/
def dirRun (st : DirSt) (ops : List DirOp) : DirSt := ops.foldl dirStep st

/-- A `popd` that pops a directory changes into it successfully: its
canonicalization returns the stored path itself and `set_current_dir`
succeeds.  Other operations are unconstrained. -/
def popdStepOk (st : DirSt) : DirOp → Bool
  | .popd fs =>
    match st.dirStack.getLast? with
    | some t => fs.canonTarget = some t && fs.chdirOk
    | none => true
  | _ => true

/-- Every `popd` in the run satisfies `popdStepOk` at its point of
execution. -/
def popdOkRun (st : DirSt) : List DirOp → Bool
  | [] => true
  | op :: rest => popdStepOk st op && popdOkRun (dirStep st op) rest

/-! ## Shell options: `set`, `export` -/

/-- Rust `str::contains` (substring). -/
def listContainsSub (s pat : Str) : Bool :=
  match s with
  | [] => pat.isEmpty
  | c :: rest => pat.isPrefixOf (c :: rest) || listContainsSub rest pat

/-- `util::append_value_for_key` (`src/util.rs` lines 150-162): ensure
the key exists (empty default), then append unless the value already
contains the appended string. -/
def appendValueForKey (app k : Str) (m : EnvMap) : EnvMap :=
  let m1 := if envContains m k then m else envInsert m k []
  let old := (envLookup m1 k).getD []
  if listContainsSub old app then m1 else envInsert m1 k (old ++ app)

/-- `util::replace_value_for_key` (`src/util.rs` lines 167-180): ensure
the key exists (empty default), then replace all occurrences when the
value contains the replaced string. -/
def replaceValueForKey (rep wth k : Str) (m : EnvMap) : EnvMap :=
  let m1 := if envContains m k then m else envInsert m k []
  let old := (envLookup m1 k).getD []
  if listContainsSub old rep then envInsert m1 k (listReplace old rep wth) else m1

/-- Session fields mutated by `set` and `export`. -/
structure OptSt where
  env : EnvMap
  xtrace : Bool
  errexit : Bool
  ignoreeof : Bool
  verbose : Nat
deriving Repr, DecidableEq

/-- `SetCommand::set` (`src/command/set_command.rs` lines 91-118): for
the coded options `x`/`e`/`v`, add or remove the code in `$-` and flip
the matching context field; unknown codes change nothing. -/
def setOpt (opt : Str) (enable : Bool) (st : OptSt) : OptSt :=
  if opt = ['x'] ∨ opt = ['e'] ∨ opt = ['v'] then
    let env :=
      if enable then appendValueForKey opt ['-'] st.env
      else replaceValueForKey opt [] ['-'] st.env
    let st := { st with env := env }
    if opt = ['x'] then { st with xtrace := enable }
    else if opt = ['e'] then { st with errexit := enable }
    else { st with verbose := if enable then 1 else 0 }
  else st

/-- The clap-parsed shapes of a `set` invocation that
`SetCommand::execute` dispatches on (`src/command/set_command.rs`);
`verboseFlag n` stands for `-v` given `n + 1` times. -/
inductive SetArgs
  | xtraceFlag
  | errexitFlag
  | verboseFlag (n : Nat)
  | optName (name : Str)
  | unsetOName (name : Option Str)
  | unsetPlus (raw : Str)
  | plain
deriving Repr

/-- `SetCommand::execute` (`src/command/set_command.rs` lines 121-213)
restricted to its state effects (edit-mode switching and printing are
external). -/
def setExec (a : SetArgs) (st : OptSt) : OptSt :=
  match a with
  | .xtraceFlag => setOpt ['x'] true st
  | .errexitFlag => setOpt ['e'] true st
  | .verboseFlag n =>
    { st with env := appendValueForKey ['v'] ['-'] st.env, verbose := n + 1 }
  | .optName name =>
    if name = "xtrace".data then setOpt ['x'] true st
    else if name = "errexit".data then setOpt ['e'] true st
    else if name = "verbose".data then setOpt ['v'] true st
    else if name = "ignoreeof".data then { st with ignoreeof := true }
    else st
  | .unsetOName none => st
  | .unsetOName (some name) =>
    if name = "xtrace".data then setOpt ['x'] false st
    else if name = "errexit".data then setOpt ['e'] false st
    else if name = "verbose".data then setOpt ['v'] false st
    else if name = "ignoreeof".data then { st with ignoreeof := false }
    else st
  | .unsetPlus raw =>
    if raw.headD ' ' ≠ '+' ∨ raw.length = 1 then st
    else setOpt (raw.drop 1) false st
  | .plain => st

/-- The `KEY=VALUE` split used by `ExportCommand::execute` and the
inline-assignment scan: split at the first `=`, defaulting to an empty
value. -/
def splitVar (var : Str) : Str × Str :=
  match var.findIdx? (fun c => c = '=') with
  | some pos => (var.take pos, var.drop (pos + 1))
  | none => (var, [])

/-- The clap-2 argument validation of `ExportCommand::execute`
(`src/command/export_command.rs` lines 30-34,
`get_matches_from_safe_borrow`): the app declares a single positional
(multiple) argument, so parsing fails on any argument before a literal
`--` that starts with `-` and is longer than one character — an
unknown short or long option, or the auto-generated help flag, all of
which come back as `Err` and make `execute` return `Ok(false)` without
touching the environment.  A lone `-` is a positional value, and after
`--` everything is positional. -/
def exportClapOk : List Str → Bool
  | [] => true
  | a :: rest =>
    if a = ['-', '-'] then true
    else if a.headD ' ' = '-' ∧ 1 < a.length then false
    else exportClapOk rest

/-- `ExportCommand::execute` (`src/command/export_command.rs` lines
29-53): when clap accepts the arguments, without arguments print the
environment (no state change), else insert each `VAR[=VAL]` pair —
iterating the *raw* argument list, a `--` separator included; a clap
error changes nothing. -/
def exportExec (args : List Str) (st : OptSt) : OptSt :=
  if exportClapOk args then
    if args = [] then st
    else
      { st with
        env := args.foldl (fun e var => envInsert e (splitVar var).1 (splitVar var).2) st.env }
  else st

/-- A builtin invocation touching the option state. -/
inductive BuiltinOp
  | set (a : SetArgs)
  | exportCmd (args : List Str)
deriving Repr

/-- Dispatch of one option-touching builtin. -/
def builtinStep (st : OptSt) : BuiltinOp → OptSt
  | .set a => setExec a st
  | .exportCmd args => exportExec args st

/-- Run a sequence of option-touching builtins. -/
def builtinRun (st : OptSt) (ops : List BuiltinOp) : OptSt := ops.foldl builtinStep st

/-- The option state of `ContextData::default()`: empty environment, all
options off. -/
def optInit : OptSt := ⟨[], false, false, false, 0⟩

/-- An `export` invocation never assigning to the reserved key `-`. -/
def noDashWrite : BuiltinOp → Bool
  | .exportCmd args => args.all (fun var => (splitVar var).1 ≠ ['-'])
  | .set _ => true

/-- The `$-` mirror invariant: the entry at key `-` holds each enabled
single-letter code exactly once and nothing else, in lockstep with the
`xtrace`/`errexit`/`verbose` fields. -/
def MirrorOk (st : OptSt) : Prop :=
  let d := (envLookup st.env ['-']).getD []
  d.Nodup ∧ ('x' ∈ d ↔ st.xtrace = true) ∧ ('e' ∈ d ↔ st.errexit = true) ∧
    ('v' ∈ d ↔ 0 < st.verbose) ∧ ∀ c ∈ d, c = 'x' ∨ c = 'e' ∨ c = 'v'

instance (st : OptSt) : Decidable (MirrorOk st) := by
  unfold MirrorOk; infer_instance

/-! ## External command execution and dispatch -/

/-- Outcome of `process::Command::spawn` + `Child::wait` for one
external command: `Except.error` when the process fails to start,
`.ok none` when `wait` itself errors, `.ok (some status)` with the exit
status — `none` when killed by a signal (no exit code), `some code`
for a normal exit. -/
abbrev SpawnOutcome := Except Unit (Option (Option Int))

/-- `GeneralCommand::execute` (`src/command/general_command.rs` lines
18-58): on completion store the exit code (0 when absent) in `$?`;
terminate with that code under `errexit` on failure; a failed start is
a recoverable failure, or fatal `1` under `errexit`. -/
def generalExecute (errexit : Bool) (env : EnvMap) (spawn : SpawnOutcome) :
    Except Int Bool × EnvMap :=
  match spawn with
  | .error _ => (if errexit then .error 1 else .ok false, env)
  | .ok none => (.ok false, env)
  | .ok (some status) =>
    let code : Int := status.getD 0
    let env1 := envInsert env ['?'] (toString code).data
    let success := status = some 0
    if errexit ∧ ¬success then (.error code, env1)
    else (.ok success, env1)

/-- The error side of a `PromptResult`. -/
inductive PromptErr
  | eof
  | parse (e : ParseErr)
  | other
deriving Repr, DecidableEq

/-- `command::execute` (`src/command/mod.rs` lines 82-101): run the
parsed command, turning `Err(code)` into an exit code; an `EofError`
yields exit code 0 unless `ignoreeof` is set; every other error is
printed and swallowed. -/
def dispatchExecute (cmd : Except PromptErr (Except Int Bool)) (ignoreeof : Bool) :
    Option Int :=
  match cmd with
  | .ok (.ok _) => none
  | .ok (.error code) => some code
  | .error .eof => if ignoreeof then none else some 0
  | .error _ => none

/-! ## Helper lemmas -/

instance {ε α : Type} [DecidableEq ε] [DecidableEq α] : DecidableEq (Except ε α)
  | .ok a, .ok b =>
    if h : a = b then isTrue (by rw [h]) else isFalse (fun hh => h (Except.ok.inj hh))
  | .error a, .error b =>
    if h : a = b then isTrue (by rw [h]) else isFalse (fun hh => h (Except.error.inj hh))
  | .ok _, .error _ => isFalse (fun hh => Except.noConfusion hh)
  | .error _, .ok _ => isFalse (fun hh => Except.noConfusion hh)

theorem envLookup_insert_self (e : EnvMap) (k v : Str) :
    envLookup (envInsert e k v) k = some v := by
  induction e with
  | nil => simp [envInsert, envLookup]
  | cons kv rest ih =>
    by_cases h : kv.1 = k
    · simp [envInsert, h, envLookup]
    · simpa [envInsert, h, envLookup] using ih

theorem envLookup_insert_ne (e : EnvMap) (k v k' : Str) (h : k' ≠ k) :
    envLookup (envInsert e k v) k' = envLookup e k' := by
  induction e with
  | nil => simp [envInsert, envLookup, Ne.symm h]
  | cons kv rest ih =>
    by_cases hk : kv.1 = k
    · subst hk
      simp [envInsert, envLookup, Ne.symm h]
    · by_cases hk' : kv.1 = k'
      · simp [envInsert, envLookup, hk, hk', h]
      · simpa [envInsert, envLookup, hk, hk'] using ih

theorem envContains_eq_isSome (e : EnvMap) (k : Str) :
    envContains e k = (envLookup e k).isSome := by
  induction e with
  | nil => simp [envContains, envLookup]
  | cons kv rest ih =>
    by_cases h : kv.1 = k
    · simp [envContains, envLookup, h]
    · simpa [envContains, envLookup, h] using ih

/-! ## Claim theorems -/

/-- Claim C4 (confirmed).  Bare-form substitution replaces a `$`-token
only on an exact whole-token match of the key: with only `USER`
present, `$USERNAME` is left unchanged; with both `USERNAME` and `USER`
present — in either iteration order of the map — `$USERNAME` becomes
the value of `USERNAME`, so the shorter key never partially consumes
the longer token. -/
theorem C4_bare_form_exact_token_match :
    replaceVars [("USER".data, "test".data)] "$USERNAME".data = "$USERNAME".data ∧
    replaceVars [("USERNAME".data, "foobar".data), ("USER".data, "test".data)]
      "$USERNAME".data = "foobar".data ∧
    replaceVars [("USER".data, "test".data), ("USERNAME".data, "foobar".data)]
      "$USERNAME".data = "foobar".data := by
  refine ⟨?_, ?_, ?_⟩ <;> decide

/-- Claim C2 (code_bug).  `replace_vars` is *not* determined by the
map's key-value contents alone: over the same two entries
`A ↦ "$B", B ↦ "x"` (a permutation, i.e. the same `HashMap` contents
under two iteration orders), the input `$A` yields `x` in one order and
`$B` in the other, because a substituted value is re-scanned by the
keys that iterate after it. -/
theorem C2_substitution_depends_on_iteration_order :
    [("A".data, "$B".data), ("B".data, "x".data)].Perm
      [("B".data, "x".data), ("A".data, "$B".data)] ∧
    replaceVars [("A".data, "$B".data), ("B".data, "x".data)] "$A".data = "x".data ∧
    replaceVars [("B".data, "x".data), ("A".data, "$B".data)] "$A".data = "$B".data ∧
    replaceVars [("A".data, "$B".data), ("B".data, "x".data)] "$A".data ≠
      replaceVars [("B".data, "x".data), ("A".data, "$B".data)] "$A".data := by
  refine ⟨List.Perm.swap _ _ _, ?_, ?_, ?_⟩ <;> decide

/-- Claim C9 (confirmed).  On end-of-input the dispatch layer yields
exit code 0 when `ignoreeof` is disabled and no exit code (the loop
reprompts) when it is enabled. -/
theorem C9_eof_dispatch (ignoreeof : Bool) :
    dispatchExecute (.error .eof) ignoreeof = if ignoreeof then none else some 0 := by
  cases ignoreeof <;> rfl

/-- Claim C8 (confirmed).  A completed external command stores its exit
code in `$?`; a non-zero exit under `errexit` terminates the REPL with
that exact code; a failed start is a recoverable failure, or fatal `1`
under `errexit`. -/
theorem C8_general_execute (errexit : Bool) (env : EnvMap) (c : Int) :
    envLookup (generalExecute errexit env (.ok (some (some c)))).2 ['?']
      = some (toString c).data ∧
    (errexit = true → c ≠ 0 →
      (generalExecute errexit env (.ok (some (some c)))).1 = .error c) ∧
    (generalExecute false env (.error ())).1 = .ok false ∧
    (generalExecute true env (.error ())).1 = .error 1 := by
  refine ⟨?_, ?_, rfl, rfl⟩
  · simp only [generalExecute]
    split <;> simp [envLookup_insert_self]
  · intro he hc
    subst he
    simp [generalExecute, hc]

/-- Witness for `C8_general_execute` at `errexit = true`, `c = 3`. -/
theorem C8_general_execute_witness :
    envLookup (generalExecute true [] (.ok (some (some 3)))).2 ['?']
      = some (toString (3 : Int)).data ∧
    (generalExecute true [] (.ok (some (some 3)))).1 = .error 3 :=
  ⟨(C8_general_execute true [] 3).1, (C8_general_execute true [] 3).2.1 rfl (by decide)⟩

/-- Claim C7 (counterexample).  Glob expansion is *not* total: when the
`glob` crate rejects the pattern (a malformed glob), `util::expand_glob`
calls `.unwrap()` on the error and panics instead of keeping the
literal token. -/
theorem C7_counterexample_glob_panics :
    expandGlob (fun _ => .error ()) "a**b".data = none ∧
    expandGlob (fun _ => .error ()) "a**b".data ≠ some ["a**b".data] := by
  exact ⟨rfl, by decide⟩

theorem expandAll_isSome (g : Str → Except Unit (List Str))
    (hg : ∀ t, ∃ ps, g t = .ok ps) (vs : List Str) :
    ∃ xs, expandAll g vs = some xs := by
  induction vs with
  | nil => exact ⟨[], rfl⟩
  | cons v rest ih =>
    obtain ⟨ys, hys⟩ := ih
    by_cases hv : '*' ∈ v
    · obtain ⟨ps, hps⟩ := hg v
      exact ⟨(if ps = [] then [v] else ps) ++ ys, by
        simp [expandAll, hv, expandGlob, hps, hys]⟩
    · exact ⟨[v] ++ ys, by simp [expandAll, hv, hys]⟩

/-- Claim C7 (amended).  When the glob call itself succeeds, expansion
never fails: an empty match list keeps the literal token, and a
pipeline run in which every glob pattern is accepted by the `glob`
crate never aborts with the glob panic.  (A malformed pattern, i.e. a
glob-crate error, panics: see the counterexample.) -/
theorem C7_glob_no_match_keeps_literal :
    (∀ (g : Str → Except Unit (List Str)) (s : Str),
      g s = .ok [] → expandGlob g s = some [s]) ∧
    (∀ (o : Oracles) (st : PromptSt) (input : Str),
      (∀ t, ∃ ps, o.globFs t = .ok ps) →
      (parseCommand o st input).1 ≠ .error .globPanic) := by
  constructor
  · intro g s h
    simp [expandGlob, h]
  · intro o st input hg
    unfold parseCommand
    dsimp only
    split
    · simp
    · split
      · simp
      · split
        · rename_i hnone
          obtain ⟨xs, hxs⟩ := expandAll_isSome o.globFs hg _
          rw [hxs] at hnone
          cases hnone
        · split
          · simp
          · split <;> simp

/-- The `parse_command` fixture used by the concrete runs: no existing
directories, a glob oracle that never matches, empty environment and
aliases, auto-cd enabled (the `Config` default). -/
def noDirOracles : Oracles := ⟨"/home/u".data, fun _ => false, fun _ => .ok []⟩

/-- A fresh prompt state over `ContextData::default()`-like config. -/
def emptyPrompt : PromptSt := ⟨[], [], [], [], true⟩

/-- Witness for `C7_glob_no_match_keeps_literal`: a concrete no-match
glob keeps the token, and a concrete line with an always-accepting glob
oracle does not panic. -/
theorem C7_glob_no_match_keeps_literal_witness :
    expandGlob (fun _ => .ok []) "a*".data = some ["a*".data] ∧
    (parseCommand noDirOracles emptyPrompt "ls *".data).1 ≠ .error .globPanic :=
  ⟨C7_glob_no_match_keeps_literal.1 _ _ rfl,
    C7_glob_no_match_keeps_literal.2 _ _ _ (fun _ => ⟨[], rfl⟩)⟩

/-- Claim C1 (code_bug).  The auto-cd length restriction is vacuous:
`expanded_values.len() == 1` is tested *after* `drain(1..)` emptied the
vector down to its first element, so with auto-cd enabled the
two-token line `src foo` (where `src` names an existing directory) is
rewritten to `cd src`, silently dropping `foo` — the spec requires the
rewrite only when exactly one token remains. -/
theorem C1_autocd_rewrites_multi_token_line :
    (parseCommand ⟨"/home/u".data, fun s => s = "src".data, fun _ => .ok []⟩
      ⟨[], [], [], [], true⟩ "src foo".data).1 = .ok ("cd".data, ["src".data]) := by
  decide

/-- Claim C3 (confirmed).  Inline env var lifecycle: with no `A` in the
environment, `A=1 echo $A` dispatches args `["1"]`, marks `A` for
deletion, and after the next line `A` is absent again; with `A=42`,
the same line dispatches args `["42"]` (pre-existing value substituted
over the whole line before the inline assignment mutates the
environment), records `A ↦ 42` for restoration, leaves `A=1` for the
current dispatch, and restores `A=42` when the next line begins. -/
theorem C3_inline_env_lifecycle :
    (parseCommand noDirOracles emptyPrompt "A=1 echo $A".data).1
      = .ok ("echo".data, ["1".data]) ∧
    (parseCommand noDirOracles emptyPrompt "A=1 echo $A".data).2.delete = ["A".data] ∧
    envLookup (parseCommand noDirOracles emptyPrompt "A=1 echo $A".data).2.env "A".data
      = some "1".data ∧
    envLookup (parseCommand noDirOracles
        ((parseCommand noDirOracles emptyPrompt "A=1 echo $A".data).2) "".data).2.env
      "A".data = none ∧
    (parseCommand noDirOracles ⟨[("A".data, "42".data)], [], [], [], true⟩
        "A=1 echo $A".data).1 = .ok ("echo".data, ["42".data]) ∧
    (parseCommand noDirOracles ⟨[("A".data, "42".data)], [], [], [], true⟩
        "A=1 echo $A".data).2.restore = [("A".data, "42".data)] ∧
    envLookup (parseCommand noDirOracles ⟨[("A".data, "42".data)], [], [], [], true⟩
        "A=1 echo $A".data).2.env "A".data = some "1".data ∧
    envLookup (parseCommand noDirOracles
        ((parseCommand noDirOracles ⟨[("A".data, "42".data)], [], [], [], true⟩
          "A=1 echo $A".data).2) "".data).2.env "A".data = some "42".data := by
  refine ⟨?_, ?_, ?_, ?_, ?_, ?_, ?_, ?_⟩ <;> decide

theorem findIdxEq_isSome :
    ∀ (w : Str) (i : Nat), '=' ∈ w →
      ∃ pos, w.findIdx? (fun c => c = '=') i = some pos := by
  intro w
  induction w with
  | nil => intro i h; cases h
  | cons c rest ih =>
    intro i h
    by_cases hc : c = '='
    · exact ⟨i, by rw [List.findIdx?_cons, if_pos (by simpa using hc)]⟩
    · have hm : '=' ∈ rest := by
        rcases List.mem_cons.mp h with h1 | h1
        · exact absurd h1.symm hc
        · exact h1
      obtain ⟨p, hp⟩ := ih (i + 1) hm
      exact ⟨p, by rw [List.findIdx?_cons, if_neg (by simpa using hc)]; exact hp⟩

/-- Claim C10 (confirmed).  During the inline-assignment scan, any word
in leading position containing `=` anywhere is consumed as an
assignment split at the first `=`: in particular `=foo` inserts the
empty-string variable name, and a leading `--opt=x` becomes an
assignment to key `--opt` instead of reaching the command. -/
theorem C10_leading_word_with_equals_is_assignment :
    (∀ (s : ScanSt) (w : Str), s.abort = false → '=' ∈ w →
      (inlineScanStep s w).2 = none ∧
      (inlineScanStep s w).1.env = envInsert s.env (splitVar w).1 (splitVar w).2) ∧
    (parseCommand noDirOracles emptyPrompt "=foo echo hi".data).1
      = .ok ("echo".data, ["hi".data]) ∧
    envLookup (parseCommand noDirOracles emptyPrompt "=foo echo hi".data).2.env []
      = some "foo".data ∧
    (parseCommand noDirOracles emptyPrompt "--opt=x echo hi".data).1
      = .ok ("echo".data, ["hi".data]) ∧
    envLookup (parseCommand noDirOracles emptyPrompt "--opt=x echo hi".data).2.env
      "--opt".data = some "x".data := by
  refine ⟨?_, by decide, by decide, by decide, by decide⟩
  intro s w hab hmem
  obtain ⟨pos, hpos⟩ := findIdxEq_isSome w 0 hmem
  simp only [inlineScanStep, hab, Bool.false_eq_true, if_false, hpos, splitVar]
  refine ⟨trivial, ?_⟩
  split <;> rfl

/-- Witness for `C10_leading_word_with_equals_is_assignment` at the
leading word `B=2`. -/
theorem C10_leading_word_witness :
    (inlineScanStep ⟨false, [], [], []⟩ "B=2".data).2 = none ∧
    (inlineScanStep ⟨false, [], [], []⟩ "B=2".data).1.env =
      envInsert [] (splitVar "B=2".data).1 (splitVar "B=2".data).2 :=
  C10_leading_word_with_equals_is_assignment.1 ⟨false, [], [], []⟩ "B=2".data rfl
    (by decide)

/-! ## Directory-stack invariant (C5) -/

theorem setCwd_eq_some {fs : FsStep} {c o n : Str} (h : setCwd fs c = (some o, n)) :
    o = c ∧ n = fs.canonTarget.getD [] ∧ fs.canonTarget.getD [] ≠ c := by
  simp only [setCwd] at h
  by_cases h1 : fs.canonTarget.getD [] = c
  · rw [if_pos h1] at h
    simp at h
  · rw [if_neg h1] at h
    by_cases h2 : fs.chdirOk
    · rw [if_pos h2] at h
      injection h with ha hb
      exact ⟨(Option.some.inj ha).symm, hb.symm, h1⟩
    · rw [if_neg h2] at h
      simp at h

theorem setCwd_eq_none {fs : FsStep} {c n : Str} (h : setCwd fs c = (none, n)) :
    n = c := by
  simp only [setCwd] at h
  by_cases h1 : fs.canonTarget.getD [] = c
  · rw [if_pos h1] at h
    injection h with _ hb
    exact hb.symm
  · rw [if_neg h1] at h
    by_cases h2 : fs.chdirOk
    · rw [if_pos h2] at h
      simp at h
    · rw [if_neg h2] at h
      injection h with _ hb
      exact hb.symm

/-- The directory-stack safety invariant: the stack extended by the
current directory has no adjacent duplicates (in particular the top of
the stack is never the current directory). -/
def DirInv (st : DirSt) : Prop :=
  List.Chain' (· ≠ ·) (st.dirStack ++ [st.cwd])

theorem DirInv_getLast_ne {st : DirSt} (h : DirInv st) :
    st.dirStack.getLast? ≠ some st.cwd := by
  intro hc
  rcases List.chain'_append.mp h with ⟨_, _, h3⟩
  exact h3 st.cwd (by simp [hc]) st.cwd (by simp) rfl

theorem DirInv_push {st : DirSt} (h : DirInv st) {n : Str} (hn : n ≠ st.cwd) :
    DirInv ⟨st.dirStack ++ [st.cwd], n⟩ := by
  unfold DirInv at h ⊢
  rw [List.chain'_append]
  refine ⟨h, List.chain'_singleton n, ?_⟩
  intro x hx y hy
  rw [List.getLast?_concat] at hx
  simp only [List.head?_cons, Option.mem_some_iff] at hx hy
  subst hx; subst hy
  exact fun hcon => hn hcon.symm

theorem dirStep_inv {st : DirSt} {op : DirOp} (h : DirInv st)
    (hok : popdStepOk st op = true) : DirInv (dirStep st op) := by
  cases op with
  | cd fs =>
    show DirInv (cdExec fs st)
    rcases hsc : setCwd fs st.cwd with ⟨o, n⟩
    cases o with
    | none =>
      have hn := setCwd_eq_none hsc
      unfold cdExec
      rw [hsc, hn]
      exact h
    | some o =>
      obtain ⟨ho, hn, hne⟩ := setCwd_eq_some hsc
      subst ho
      unfold cdExec
      rw [hsc]
      dsimp only
      rw [if_neg (DirInv_getLast_ne h)]
      exact DirInv_push h (hn ▸ hne)
  | pushd hasPath fs =>
    show DirInv (pushdExec hasPath fs st)
    cases hasPath with
    | false => exact h
    | true =>
      rcases hsc : setCwd fs st.cwd with ⟨o, n⟩
      cases o with
      | none =>
        have hn := setCwd_eq_none hsc
        unfold pushdExec
        rw [if_pos rfl, hsc, hn]
        exact h
      | some o =>
        obtain ⟨ho, hn, hne⟩ := setCwd_eq_some hsc
        subst ho
        unfold pushdExec
        rw [if_pos rfl, hsc]
        exact DirInv_push h (hn ▸ hne)
  | popd fs =>
    show DirInv (popdExec fs st)
    rcases hl : st.dirStack.getLast? with _ | t
    · unfold popdExec
      rw [hl]
      exact h
    · have hokt : fs.canonTarget = some t ∧ fs.chdirOk = true := by
        have := hok
        unfold popdStepOk at this
        rw [hl] at this
        simpa using this
      have htc : t ≠ st.cwd := by
        intro hcon
        exact DirInv_getLast_ne h (hcon ▸ hl)
      have hstack : st.dirStack.dropLast ++ [t] = st.dirStack :=
        List.dropLast_append_getLast? t (by simp [hl])
      have hchain : List.Chain' (· ≠ ·) (st.dirStack.dropLast ++ [t]) := by
        have h' : List.Chain' (· ≠ ·) ((st.dirStack.dropLast ++ [t]) ++ [st.cwd]) := by
          rw [hstack]; exact h
        exact (List.chain'_append.mp h').1
      unfold popdExec
      rw [hl]
      have hsc : setCwd fs st.cwd = (some st.cwd, t) := by
        unfold setCwd
        rw [hokt.1]
        simp [htc, hokt.2]
      show DirInv ⟨st.dirStack.dropLast, (setCwd fs st.cwd).2⟩
      rw [hsc]
      exact hchain

theorem dirRun_inv (ops : List DirOp) :
    ∀ st : DirSt, DirInv st → popdOkRun st ops = true → DirInv (dirRun st ops) := by
  induction ops with
  | nil => intro st h _; exact h
  | cons op rest ih =>
    intro st h hok
    unfold popdOkRun at hok
    obtain ⟨h1, h2⟩ := (Bool.and_eq_true _ _) ▸ hok
    exact ih _ (dirStep_inv h h1) h2

/-- Claim C5 (amended).  In any sequence of `cd`/`pushd`/`popd`
operations in which every executed `popd` successfully changes into the
popped (canonical) directory, the directory stack never holds equal
paths in adjacent positions — in particular not in its top two; and
`CdCommand`'s push is guarded, so a `cd` whose old cwd equals the
stack's top leaves the stack unchanged.  (Without the `popd` success
condition, `PushdCommand`'s unguarded push can create an adjacent
duplicate: see the counterexample.) -/
theorem C5_no_adjacent_duplicates :
    (∀ (c0 : Str) (ops : List DirOp), popdOkRun ⟨[], c0⟩ ops = true →
      List.Chain' (· ≠ ·) (dirRun ⟨[], c0⟩ ops).dirStack) ∧
    (∀ (fs : FsStep) (st : DirSt), st.dirStack.getLast? = some st.cwd →
      (cdExec fs st).dirStack = st.dirStack) := by
  constructor
  · intro c0 ops hok
    have hinit : DirInv ⟨[], c0⟩ := by
      unfold DirInv
      simp
    have h := dirRun_inv ops _ hinit hok
    exact (List.chain'_append.mp h).1
  · intro fs st hl
    rcases hsc : setCwd fs st.cwd with ⟨o, n⟩
    cases o with
    | none =>
      unfold cdExec
      rw [hsc]
    | some o =>
      obtain ⟨ho, _, _⟩ := setCwd_eq_some hsc
      subst ho
      unfold cdExec
      rw [hsc]
      dsimp only
      rw [if_pos hl]

/-- Witness for `C5_no_adjacent_duplicates`: a concrete two-step trace
whose `popd` succeeds, and a concrete guarded `cd`. -/
theorem C5_no_adjacent_duplicates_witness :
    popdOkRun ⟨[], "/a".data⟩
      [.pushd true ⟨some "/b".data, true⟩, .popd ⟨some "/a".data, true⟩] = true ∧
    List.Chain' (· ≠ ·) (dirRun ⟨[], "/a".data⟩
      [.pushd true ⟨some "/b".data, true⟩, .popd ⟨some "/a".data, true⟩]).dirStack ∧
    (cdExec ⟨some "/y".data, true⟩ ⟨["/x".data], "/x".data⟩).dirStack = ["/x".data] :=
  ⟨by decide,
    C5_no_adjacent_duplicates.1 "/a".data _ (by decide),
    C5_no_adjacent_duplicates.2 ⟨some "/y".data, true⟩ ⟨["/x".data], "/x".data⟩ rfl⟩

/-- The four-step run refuting the unamended claim C5: `pushd /b` from
`/a`, `pushd /a`, a `popd` whose directory change fails (`/b` no longer
exists at that moment), then `pushd /b` again after `/b` reappears. -/
def c5Trace : List DirOp :=
  [.pushd true ⟨some "/b".data, true⟩,
   .pushd true ⟨some "/a".data, true⟩,
   .popd ⟨none, false⟩,
   .pushd true ⟨some "/b".data, true⟩]

/-- Claim C5 (counterexample).  `PushdCommand` pushes the old cwd with
no duplicate guard, so after a `popd` whose `chdir` fails the stack's
top can equal the cwd, and the next `pushd` stores the same path in the
top two positions: the claim's invariant is violated by this
reachable run. -/
theorem C5_counterexample_adjacent_duplicate :
    (dirRun ⟨[], "/a".data⟩ c5Trace).dirStack = ["/a".data, "/a".data] ∧
    ¬ List.Chain' (· ≠ ·) (dirRun ⟨[], "/a".data⟩ c5Trace).dirStack := by
  have h1 : (dirRun ⟨[], "/a".data⟩ c5Trace).dirStack = ["/a".data, "/a".data] := by
    decide
  refine ⟨h1, ?_⟩
  intro hcon
  rw [h1] at hcon
  exact (List.chain'_pair.mp hcon) rfl

/-! ## The `$-` option mirror (C6) -/

theorem listContainsSub_singleton (s : Str) (c : Char) :
    listContainsSub s [c] = true ↔ c ∈ s := by
  induction s with
  | nil => simp [listContainsSub]
  | cons x rest ih =>
    simp only [listContainsSub, List.isPrefixOf, Bool.or_eq_true, List.mem_cons]
    constructor
    · rintro (h | h)
      · left
        have h2 := (Bool.and_eq_true _ _) ▸ h
        exact beq_iff_eq.mp h2.1
      · exact Or.inr (ih.mp h)
    · rintro (h | h)
      · exact Or.inl (by simp [h.symm, List.isPrefixOf])
      · exact Or.inr (ih.mpr h)

theorem listReplaceGo_singleton (c : Char) :
    ∀ (fuel : Nat) (s : Str), s.length ≤ fuel →
      listReplaceGo fuel s [c] [] = s.filter (fun x => x ≠ c) := by
  intro fuel
  induction fuel with
  | zero =>
    intro s hs
    have hnil : s = [] := List.length_eq_zero.mp (Nat.le_zero.mp hs)
    subst hnil
    rfl
  | succ fuel ih =>
    intro s hs
    cases s with
    | nil => rfl
    | cons x rest =>
      have hrest : rest.length ≤ fuel := by
        simp only [List.length_cons] at hs
        omega
      simp only [listReplaceGo]
      by_cases hx : x = c
      · subst hx
        rw [if_pos ⟨by simp, by simp [List.isPrefixOf]⟩]
        simp only [List.length_cons, List.length_nil, List.drop_succ_cons, List.drop_zero,
          List.nil_append]
        rw [ih rest hrest]
        simp [List.filter_cons]
      · rw [if_neg (by simp [List.isPrefixOf, Ne.symm hx])]
        rw [ih rest hrest]
        simp [List.filter_cons, hx]

theorem listReplace_singleton (s : Str) (c : Char) :
    listReplace s [c] [] = s.filter (fun x => x ≠ c) :=
  listReplaceGo_singleton c s.length s le_rfl

theorem envLookup_append_dash (c : Char) (env : EnvMap) :
    envLookup (appendValueForKey [c] ['-'] env) ['-'] =
      some (if c ∈ (envLookup env ['-']).getD [] then (envLookup env ['-']).getD []
            else (envLookup env ['-']).getD [] ++ [c]) := by
  simp only [appendValueForKey]
  by_cases hc : envContains env ['-'] = true
  · have hs : (envLookup env ['-']).isSome := by
      rw [← envContains_eq_isSome]; exact hc
    obtain ⟨d, hlk⟩ := Option.isSome_iff_exists.mp hs
    rw [if_pos hc, hlk]
    simp only [Option.getD_some]
    by_cases hsub : listContainsSub d [c] = true
    · rw [if_pos hsub, hlk, if_pos ((listContainsSub_singleton d c).mp hsub)]
    · rw [if_neg hsub, envLookup_insert_self,
        if_neg (fun hm => hsub ((listContainsSub_singleton d c).mpr hm))]
  · have hn : envLookup env ['-'] = none := by
      have hs : (envLookup env ['-']).isSome = false := by
        rw [← envContains_eq_isSome]; simpa using hc
      cases hlk : envLookup env ['-'] with
      | none => rfl
      | some d => rw [hlk] at hs; cases hs
    rw [if_neg hc, hn, envLookup_insert_self]
    simp only [Option.getD_some, Option.getD_none]
    rw [if_neg (by simp [listContainsSub])]
    rw [envLookup_insert_self]
    simp

theorem envLookup_replace_dash (c : Char) (env : EnvMap) :
    envLookup (replaceValueForKey [c] [] ['-'] env) ['-'] =
      some (((envLookup env ['-']).getD []).filter (fun x => x ≠ c)) := by
  simp only [replaceValueForKey]
  by_cases hc : envContains env ['-'] = true
  · have hs : (envLookup env ['-']).isSome := by
      rw [← envContains_eq_isSome]; exact hc
    obtain ⟨d, hlk⟩ := Option.isSome_iff_exists.mp hs
    rw [if_pos hc, hlk]
    simp only [Option.getD_some]
    by_cases hsub : listContainsSub d [c] = true
    · rw [if_pos hsub, envLookup_insert_self, listReplace_singleton]
    · have hfe : d.filter (fun x => x ≠ c) = d := by
        refine List.filter_eq_self.mpr (fun a ha => ?_)
        have hcm : ¬ c ∈ d := fun hm => hsub ((listContainsSub_singleton d c).mpr hm)
        simp only [ne_eq, decide_eq_true_eq]
        exact fun hac => hcm (hac ▸ ha)
      rw [if_neg hsub, hlk, hfe]
  · have hn : envLookup env ['-'] = none := by
      have hs : (envLookup env ['-']).isSome = false := by
        rw [← envContains_eq_isSome]; simpa using hc
      cases hlk : envLookup env ['-'] with
      | none => rfl
      | some d => rw [hlk] at hs; cases hs
    rw [if_neg hc, hn, envLookup_insert_self]
    simp only [Option.getD_some, Option.getD_none]
    rw [if_neg (by simp [listContainsSub])]
    rw [envLookup_insert_self]
    simp

theorem mem_enable (c' c : Char) (d : Str) :
    c' ∈ (if c ∈ d then d else d ++ [c]) ↔ c' = c ∨ c' ∈ d := by
  by_cases h : c ∈ d
  · rw [if_pos h]
    constructor
    · exact Or.inr
    · rintro (rfl | h2)
      · exact h
      · exact h2
  · rw [if_neg h]
    simp [List.mem_append, or_comm]

theorem nodup_enable (c : Char) (d : Str) (hd : d.Nodup) :
    (if c ∈ d then d else d ++ [c]).Nodup := by
  by_cases h : c ∈ d
  · rw [if_pos h]; exact hd
  · rw [if_neg h]
    simp [List.nodup_append, hd, h]

theorem mem_disable (c' c : Char) (d : Str) :
    c' ∈ d.filter (fun x => x ≠ c) ↔ c' ∈ d ∧ c' ≠ c := by
  simp [List.mem_filter]

theorem mirror_setOpt (opt : Str) (b : Bool) {st : OptSt} (h : MirrorOk st) :
    MirrorOk (setOpt opt b st) := by
  obtain ⟨hnd, hx, he, hv, hall⟩ := h
  by_cases hopt : opt = ['x'] ∨ opt = ['e'] ∨ opt = ['v']
  · rcases hopt with h1 | h1 | h1 <;> subst h1 <;> cases b
    · -- `+x`
      show MirrorOk
        ⟨replaceValueForKey ['x'] [] ['-'] st.env, false, st.errexit, st.ignoreeof, st.verbose⟩
      unfold MirrorOk
      simp only [envLookup_replace_dash, Option.getD_some]
      refine ⟨hnd.filter _, ?_, ?_, ?_, ?_⟩
      · simp [mem_disable]
      · rw [mem_disable]
        simpa [show ('e' : Char) ≠ 'x' by decide] using he
      · rw [mem_disable]
        simpa [show ('v' : Char) ≠ 'x' by decide] using hv
      · intro a ha
        exact hall a ((mem_disable a 'x' _).mp ha).1
    · -- `-x`
      show MirrorOk
        ⟨appendValueForKey ['x'] ['-'] st.env, true, st.errexit, st.ignoreeof, st.verbose⟩
      unfold MirrorOk
      simp only [envLookup_append_dash, Option.getD_some]
      refine ⟨nodup_enable _ _ hnd, ?_, ?_, ?_, ?_⟩
      · simp [mem_enable]
      · rw [mem_enable]
        simpa [show ('e' : Char) ≠ 'x' by decide] using he
      · rw [mem_enable]
        simpa [show ('v' : Char) ≠ 'x' by decide] using hv
      · intro a ha
        rcases (mem_enable a 'x' _).mp ha with rfl | ha2
        · exact Or.inl rfl
        · exact hall a ha2
    · -- `+e`
      show MirrorOk
        ⟨replaceValueForKey ['e'] [] ['-'] st.env, st.xtrace, false, st.ignoreeof, st.verbose⟩
      unfold MirrorOk
      simp only [envLookup_replace_dash, Option.getD_some]
      refine ⟨hnd.filter _, ?_, ?_, ?_, ?_⟩
      · rw [mem_disable]
        simpa [show ('x' : Char) ≠ 'e' by decide] using hx
      · simp [mem_disable]
      · rw [mem_disable]
        simpa [show ('v' : Char) ≠ 'e' by decide] using hv
      · intro a ha
        exact hall a ((mem_disable a 'e' _).mp ha).1
    · -- `-e`
      show MirrorOk
        ⟨appendValueForKey ['e'] ['-'] st.env, st.xtrace, true, st.ignoreeof, st.verbose⟩
      unfold MirrorOk
      simp only [envLookup_append_dash, Option.getD_some]
      refine ⟨nodup_enable _ _ hnd, ?_, ?_, ?_, ?_⟩
      · rw [mem_enable]
        simpa [show ('x' : Char) ≠ 'e' by decide] using hx
      · simp [mem_enable]
      · rw [mem_enable]
        simpa [show ('v' : Char) ≠ 'e' by decide] using hv
      · intro a ha
        rcases (mem_enable a 'e' _).mp ha with rfl | ha2
        · exact Or.inr (Or.inl rfl)
        · exact hall a ha2
    · -- `+v`
      show MirrorOk
        ⟨replaceValueForKey ['v'] [] ['-'] st.env, st.xtrace, st.errexit, st.ignoreeof, 0⟩
      unfold MirrorOk
      simp only [envLookup_replace_dash, Option.getD_some]
      refine ⟨hnd.filter _, ?_, ?_, ?_, ?_⟩
      · rw [mem_disable]
        simpa [show ('x' : Char) ≠ 'v' by decide] using hx
      · rw [mem_disable]
        simpa [show ('e' : Char) ≠ 'v' by decide] using he
      · simp [mem_disable]
      · intro a ha
        exact hall a ((mem_disable a 'v' _).mp ha).1
    · -- `-v`
      show MirrorOk
        ⟨appendValueForKey ['v'] ['-'] st.env, st.xtrace, st.errexit, st.ignoreeof, 1⟩
      unfold MirrorOk
      simp only [envLookup_append_dash, Option.getD_some]
      refine ⟨nodup_enable _ _ hnd, ?_, ?_, ?_, ?_⟩
      · rw [mem_enable]
        simpa [show ('x' : Char) ≠ 'v' by decide] using hx
      · rw [mem_enable]
        simpa [show ('e' : Char) ≠ 'v' by decide] using he
      · simp [mem_enable]
      · intro a ha
        rcases (mem_enable a 'v' _).mp ha with rfl | ha2
        · exact Or.inr (Or.inr rfl)
        · exact hall a ha2
  · unfold setOpt
    rw [if_neg hopt]
    exact ⟨hnd, hx, he, hv, hall⟩

theorem mirror_setExec (a : SetArgs) {st : OptSt} (h : MirrorOk st) :
    MirrorOk (setExec a st) := by
  cases a with
  | xtraceFlag => exact mirror_setOpt _ _ h
  | errexitFlag => exact mirror_setOpt _ _ h
  | verboseFlag n =>
    obtain ⟨hnd, hx, he, hv, hall⟩ := h
    show MirrorOk
      ⟨appendValueForKey ['v'] ['-'] st.env, st.xtrace, st.errexit, st.ignoreeof, n + 1⟩
    unfold MirrorOk
    simp only [envLookup_append_dash, Option.getD_some]
    refine ⟨nodup_enable _ _ hnd, ?_, ?_, ?_, ?_⟩
    · rw [mem_enable]
      simpa [show ('x' : Char) ≠ 'v' by decide] using hx
    · rw [mem_enable]
      simpa [show ('e' : Char) ≠ 'v' by decide] using he
    · simp [mem_enable]
    · intro a ha
      rcases (mem_enable a 'v' _).mp ha with rfl | ha2
      · exact Or.inr (Or.inr rfl)
      · exact hall a ha2
  | optName name =>
    simp only [setExec]
    split_ifs
    · exact mirror_setOpt _ _ h
    · exact mirror_setOpt _ _ h
    · exact mirror_setOpt _ _ h
    · exact h
    · exact h
  | unsetOName name =>
    cases name with
    | none => exact h
    | some nm =>
      simp only [setExec]
      split_ifs
      · exact mirror_setOpt _ _ h
      · exact mirror_setOpt _ _ h
      · exact mirror_setOpt _ _ h
      · exact h
      · exact h
  | unsetPlus raw =>
    simp only [setExec]
    split_ifs
    · exact h
    · exact mirror_setOpt _ _ h
  | plain => exact h

theorem envLookup_foldl_insert_dash (args : List Str) (env : EnvMap)
    (hargs : ∀ var ∈ args, (splitVar var).1 ≠ ['-']) :
    envLookup
      (args.foldl (fun e var => envInsert e (splitVar var).1 (splitVar var).2) env) ['-']
      = envLookup env ['-'] := by
  induction args generalizing env with
  | nil => rfl
  | cons a rest ih =>
    rw [List.foldl_cons, ih _ (fun v hv => hargs v (List.mem_cons_of_mem _ hv)),
      envLookup_insert_ne _ _ _ _ (Ne.symm (hargs a (List.mem_cons_self _ _)))]

theorem mirror_builtinStep (op : BuiltinOp) {st : OptSt} (h : MirrorOk st)
    (hop : noDashWrite op = true) : MirrorOk (builtinStep st op) := by
  cases op with
  | set a => exact mirror_setExec a h
  | exportCmd args =>
    show MirrorOk (exportExec args st)
    unfold exportExec
    by_cases hclap : exportClapOk args = true
    · rw [if_pos hclap]
      by_cases hargs : args = []
      · rw [if_pos hargs]; exact h
      · rw [if_neg hargs]
        obtain ⟨hnd, hx, he, hv, hall⟩ := h
        have hne : ∀ var ∈ args, (splitVar var).1 ≠ ['-'] := by
          intro var hvar
          have := List.all_eq_true.mp hop var hvar
          exact of_decide_eq_true this
        unfold MirrorOk
        rw [envLookup_foldl_insert_dash args st.env hne]
        exact ⟨hnd, hx, he, hv, hall⟩
    · rw [if_neg hclap]
      exact h

theorem mirror_builtinRun (ops : List BuiltinOp) :
    ∀ st : OptSt, MirrorOk st → ops.all noDashWrite = true →
      MirrorOk (builtinRun st ops) := by
  induction ops with
  | nil => intro st h _; exact h
  | cons op rest ih =>
    intro st h hall
    rw [List.all_cons] at hall
    obtain ⟨h1, h2⟩ := (Bool.and_eq_true _ _) ▸ hall
    exact ih _ (mirror_builtinStep op h h1) h2

/-- Claim C6 (amended).  Starting from the default context (no `$-`
entry, all options off), after any sequence of `set` toggles and
`export` invocations none of which assigns the reserved key `-`, the
environment entry for `-` holds exactly the single-letter codes of the
currently enabled coded options (each once, in enabling order), in
lockstep with the `xtrace`/`errexit`/`verbose` fields — hence in
particular immediately after every toggle.  (An `export` that writes
key `-` directly breaks the mirror: see the counterexample.) -/
theorem C6_option_mirror (ops : List BuiltinOp) (h : ops.all noDashWrite = true) :
    MirrorOk (builtinRun optInit ops) :=
  mirror_builtinRun ops optInit (by decide) h

/-- Witness for `C6_option_mirror` on the trace `export A=1; set -e;
set -x; set +e`. -/
theorem C6_option_mirror_witness :
    ([.exportCmd ["A=1".data], .set .errexitFlag, .set .xtraceFlag,
      .set (.unsetPlus "+e".data)] : List BuiltinOp).all noDashWrite = true ∧
    MirrorOk (builtinRun optInit
      [.exportCmd ["A=1".data], .set .errexitFlag, .set .xtraceFlag,
       .set (.unsetPlus "+e".data)]) :=
  ⟨by decide, C6_option_mirror _ (by decide)⟩

/-- Claim C6 (counterexample).  `export -` passes clap validation (a
lone `-` is a positional value) and the raw-args insert loop overwrites
the reserved key `-` with `""` without touching the option fields; the
next toggle `set -e` then appends `e` to that foreign value, so
immediately after the toggle `$- = "e"` while both `xtrace` and
`errexit` are enabled — the entry is not the concatenation of the
enabled codes, so the unamended invariant fails in a state reachable by
builtins (run: `set -x; export -; set -e`). -/
theorem C6_counterexample_export_dash :
    exportClapOk [['-']] = true ∧
    envLookup (builtinRun optInit
        [.set .xtraceFlag, .exportCmd [['-']], .set .errexitFlag]).env ['-']
      = some "e".data ∧
    (builtinRun optInit
        [.set .xtraceFlag, .exportCmd [['-']], .set .errexitFlag]).xtrace = true ∧
    (builtinRun optInit
        [.set .xtraceFlag, .exportCmd [['-']], .set .errexitFlag]).errexit = true ∧
    (builtinRun optInit
        [.set .xtraceFlag, .exportCmd [['-']], .set .errexitFlag]).verbose = 0 ∧
    ¬ MirrorOk (builtinRun optInit
        [.set .xtraceFlag, .exportCmd [['-']], .set .errexitFlag]) := by
  refine ⟨by decide, by decide, by decide, by decide, by decide, by decide⟩

end Carapace
